import Mathlib

/-!
# cihelper: registry credential resolution and image push

A shallow embedding of `service/image_pusher.go` and a verification of its
specification.

Modelling conventions

* A Go `string` is a finite sequence of bytes (`GoString`); Go string literals
  are written `str "..."`, the UTF-8 bytes of the literal.
* A Go `error` is a `GoError`; `nil` is `none` in an `Option GoError`.
* Calls to external collaborators (the Rancher catalogs, the Docker client) and
  logrus calls are recorded, in program order, in a list of `Event`s; a log
  event carries the message the call formats (`Infoln` and `Errorln` of one
  string log that string).  What a
  collaborator answers is a field of `RancherClient` / `DockerEnv`.
* The status stream is the sequence of results the successive `dec.Decode`
  calls produce; a stream that is exhausted answers `io.EOF`.  The record a
  JSON object of the stream decodes to is given by `jsonmessage.Decode`.
-/

set_option autoImplicit false

/-! ## Strings and errors -/

/-- One byte. -/
abbrev Byte := Fin 256

/-- A Go string: a sequence of bytes, not necessarily valid UTF-8. -/
abbrev GoString := List Byte

namespace utf8

/-- The rune U+FFFD, `utf8.RuneError`. -/
def RuneError : Nat := 0xFFFD

/-- The function `utf8.EncodeRune`: the UTF-8 bytes of a rune; a surrogate or a
value above U+10FFFF is written as U+FFFD. -/
def EncodeRune (r : Nat) : List Byte :=
  if r ≤ 0x7F then [Fin.ofNat r]
  else if r ≤ 0x7FF then [Fin.ofNat (0xC0 + r / 64), Fin.ofNat (0x80 + r % 64)]
  else if r > 0x10FFFF ∨ (0xD800 ≤ r ∧ r ≤ 0xDFFF) then [0xEF, 0xBF, 0xBD]
  else if r ≤ 0xFFFF then
    [Fin.ofNat (0xE0 + r / 4096), Fin.ofNat (0x80 + r / 64 % 64), Fin.ofNat (0x80 + r % 64)]
  else
    [Fin.ofNat (0xF0 + r / 262144), Fin.ofNat (0x80 + r / 4096 % 64),
     Fin.ofNat (0x80 + r / 64 % 64), Fin.ofNat (0x80 + r % 64)]

/-- The table `first` of package utf8 together with `acceptRanges`: for a
leading byte, the length of the sequence and the accepted range of the second
byte; `none` for a byte that starts no multi-byte sequence (ASCII is handled
by the caller). -/
def first (s0 : Byte) : Option (Nat × Nat × Nat) :=
  if 0xC2 ≤ s0.val ∧ s0.val ≤ 0xDF then some (2, 0x80, 0xBF)
  else if s0.val = 0xE0 then some (3, 0xA0, 0xBF)
  else if s0.val = 0xED then some (3, 0x80, 0x9F)
  else if 0xE1 ≤ s0.val ∧ s0.val ≤ 0xEF then some (3, 0x80, 0xBF)
  else if s0.val = 0xF0 then some (4, 0x90, 0xBF)
  else if 0xF1 ≤ s0.val ∧ s0.val ≤ 0xF3 then some (4, 0x80, 0xBF)
  else if s0.val = 0xF4 then some (4, 0x80, 0x8F)
  else none

/-- The function `utf8.DecodeRuneInString`: the first rune of `s` and its width
in bytes; `(RuneError, 1)` for an invalid encoding, `(RuneError, 0)` for the
empty string.  Masks and shifts are written as `%` and `*`. -/
def DecodeRuneInString (s : GoString) : Nat × Nat :=
  let n := s.length
  if n < 1 then (RuneError, 0)
  else
    let s0 := s.getD 0 0
    if s0.val < 0x80 then (s0.val, 1)
    else
      match first s0 with
      | none => (RuneError, 1)
      | some (sz, lo, hi) =>
        if n < sz then (RuneError, 1)
        else
          let s1 := s.getD 1 0
          if s1.val < lo ∨ hi < s1.val then (RuneError, 1)
          else if sz ≤ 2 then (s0.val % 32 * 64 + s1.val % 64, 2)
          else
            let s2 := s.getD 2 0
            if s2.val < 0x80 ∨ 0xBF < s2.val then (RuneError, 1)
            else if sz ≤ 3 then (s0.val % 16 * 4096 + s1.val % 64 * 64 + s2.val % 64, 3)
            else
              let s3 := s.getD 3 0
              if s3.val < 0x80 ∨ 0xBF < s3.val then (RuneError, 1)
              else (s0.val % 8 * 262144 + s1.val % 64 * 4096 + s2.val % 64 * 64 + s3.val % 64, 4)

end utf8

/-- A Go string literal: the UTF-8 encoding of its characters. -/
def str (s : String) : GoString := s.data.flatMap fun c => utf8.EncodeRune c.toNat

/-- A Go `error` value: the sentinel `io.EOF`, or any other error, known by its
message. -/
inductive GoError where
  | EOF
  | other (msg : GoString)
  deriving DecidableEq, Repr

deriving instance DecidableEq for Except

/-- The method `Error()` of an error value. -/
def GoError.Error : GoError → GoString
  | .EOF => str "EOF"
  | .other msg => msg

namespace fmt

/-- The call `fmt.Errorf("Push image '%s' FAIL", image)`. -/
def Errorf_PushFail (image : GoString) : GoError :=
  .other (str "Push image '" ++ image ++ str "' FAIL")

end fmt

/-! ## Library string functions used by `splitHostName` -/

namespace strings

/-- The function `strings.Index`: the index of the first instance of `substr`
in `s`, or `-1`. -/
def Index (s substr : GoString) : Int :=
  go s 0
where
  /-- Scan from offset `k`. -/
  go : GoString → Nat → Int
    | [], k => if substr = [] then (k : Int) else -1
    | c :: cs, k => if substr.isPrefixOf (c :: cs) then (k : Int) else go cs (k + 1)

/-- The function `strings.ContainsAny` for a set `chars` of ASCII characters:
some byte of `s` is one of `chars`. -/
def ContainsAny (s chars : GoString) : Bool :=
  s.any fun b => chars.contains b

end strings

/-- The slice expression `s[:i]`. -/
def sliceTo (s : GoString) (i : Int) : GoString := s.take i.toNat

/-- The slice expression `s[i:]`. -/
def sliceFrom (s : GoString) (i : Int) : GoString := s.drop i.toNat

/-! ## Host parser -/

/-- The constant `DEFAULT_REGISTRY`. -/
def DEFAULT_REGISTRY : GoString := str "index.docker.io"

/-- The function `splitHostName`. -/
def splitHostName (image : GoString) : GoString × GoString :=
  let i := strings.Index image (str "/")
  if i == -1 || (!strings.ContainsAny (sliceTo image i) (str ".:")
      && sliceTo image i != str "localhost") then
    (DEFAULT_REGISTRY, image)
  else
    (sliceTo image i, sliceFrom image (i + 1))

/-! ## Events, collaborators and results -/

/-- The log levels the program uses. -/
inductive Level where
  | info
  | warning
  | error
  deriving DecidableEq, Repr

/-- What the program does that can be observed from outside, in order. -/
inductive Event where
  /-- The call `apiClient.Registry.List(opt)`. -/
  | registryList
  /-- The call `apiClient.RegistryCredential.List(opt)`. -/
  | credentialList
  /-- The call `logrus.Warningf` with the formatted message. -/
  | Warningf (msg : GoString)
  /-- The call `logrus.Infoln` with the message. -/
  | Infoln (msg : GoString)
  /-- The call `logrus.Errorln` with the message. -/
  | Errorln (msg : GoString)
  /-- The call `logrus.Infof` with the formatted message. -/
  | Infof (msg : GoString)
  /-- The call `dclient.NewEnvClient()`. -/
  | newEnvClient
  /-- The call `cli.Ping(ctx)`. -/
  | ping
  /-- The call `cli.UpdateClientVersion(v)`. -/
  | updateClientVersion (v : GoString)
  /-- The call `cli.ImagePush(ctx, image, ImagePushOptions{RegistryAuth: authStr})`. -/
  | imagePush (image authStr : GoString)
  /-- The deferred `out.Close()`. -/
  | close
  deriving DecidableEq, Repr

/-- The level of a log event; `none` for an event that is not a log call. -/
def Event.level : Event → Option Level
  | .Warningf _ => some .warning
  | .Infoln _ => some .info
  | .Errorln _ => some .error
  | .Infof _ => some .info
  | _ => none

/-- The fields of `client.Registry` the program reads. -/
structure Registry where
  Id : GoString
  ServerAddress : GoString
  deriving DecidableEq, Repr

/-- The fields of `client.RegistryCredential` the program reads. -/
structure RegistryCredential where
  RegistryId : GoString
  PublicValue : GoString
  SecretValue : GoString
  deriving DecidableEq, Repr

/-- The Rancher API client: what each of the two catalogs answers to `List`. -/
structure RancherClient where
  RegistryList : Except GoError (List Registry)
  RegistryCredentialList : Except GoError (List RegistryCredential)

/-- The type `jsonmessage.JSONError`. -/
structure JSONError where
  Code : Int
  Message : GoString
  deriving DecidableEq, Repr

/-- The fields of `jsonmessage.JSONMessage` the program reads; an absent field
is the empty string, an absent `Error` is `none` (the nil pointer). -/
structure JSONMessage where
  Status : GoString := []
  ProgressMessage : GoString := []
  ID : GoString := []
  Error : Option JSONError := none
  ErrorMessage : GoString := []
  deriving DecidableEq, Repr

/-- The JSON object `errorDetail` of a status object, by key; `none` is an
absent key. -/
structure ErrorDetailObject where
  code : Option Int := none
  message : Option GoString := none
  deriving DecidableEq, Repr

/-- One JSON object of the status stream, by key, for the keys behind the fields
the program reads; `none` is an absent key. -/
structure StatusObject where
  status : Option GoString := none
  progress : Option GoString := none
  id : Option GoString := none
  errorDetail : Option ErrorDetailObject := none
  error : Option GoString := none
  deriving DecidableEq, Repr

namespace jsonmessage

/-- The JSON tags of `jsonmessage.JSONMessage` and `jsonmessage.JSONError` in
Docker's library: the record `dec.Decode` fills from a status object.  The key
`status` fills `Status`, `progress` fills `ProgressMessage`, `id` fills `ID`,
`errorDetail` fills the pointer `Error` (its keys `code` and `message` fill
`Code` and `Message`), and `error` fills `ErrorMessage`; a field whose key is
absent keeps its zero value. -/
def Decode (o : StatusObject) : JSONMessage :=
  { Status := o.status.getD [],
    ProgressMessage := o.progress.getD [],
    ID := o.id.getD [],
    Error := o.errorDetail.map fun d => { Code := d.code.getD 0, Message := d.message.getD [] },
    ErrorMessage := o.error.getD [] }

end jsonmessage

/-- The result of one call `dec.Decode(&message)`: a record, or an error. -/
inductive DecodeResult where
  | msg (message : JSONMessage)
  | err (e : GoError)
  deriving DecidableEq, Repr

/-- The Docker side: what the client library and the daemon answer. -/
structure DockerEnv where
  /-- The error of `dclient.NewEnvClient()`, if any. -/
  NewEnvClient : Option GoError
  /-- The answer of `cli.Ping`: the reported API version, or an error. -/
  Ping : Except GoError GoString
  /-- The value of `cli.ClientVersion()` of a fresh client. -/
  ClientVersion : GoString
  /-- The function `versions.LessThan`. -/
  LessThan : GoString → GoString → Bool
  /-- The answer of `cli.ImagePush` for a client version, an image and an auth
  token: the status stream as successive decode results, or an error. -/
  ImagePush : GoString → GoString → GoString → Except GoError (List DecodeResult)

/-- How a function that returns `error` ends: it returns, or it panics. -/
inductive Outcome where
  | ret (err : Option GoError)
  | panic (e : GoError)
  deriving DecidableEq, Repr

/-! ## Credential resolver -/

/-- The message of both warnings of `getRegistryAuth`. -/
def warningNoCredential (image : GoString) : GoString :=
  str "Cannot find registry credential for '" ++ image ++
    str "', You probably need to add it in registries configuration."

/-- The first loop of `getRegistryAuth`: `regToPush` after the loop. -/
def getRegistryAuth.regToPush (hostName : GoString) : List Registry → Option Registry
  | [] => none
  | reg :: rest =>
    if reg.ServerAddress == hostName then some reg else regToPush hostName rest

/-- The second loop of `getRegistryAuth`: `regCredToPush` after the loop. -/
def getRegistryAuth.regCredToPush (regId : GoString) :
    List RegistryCredential → Option RegistryCredential
  | [] => none
  | regCred :: rest =>
    if regCred.RegistryId == regId then some regCred else regCredToPush regId rest

/-- The value `getRegistryAuth` returns: username, password, error. -/
structure AuthResult where
  username : GoString
  password : GoString
  err : Option GoError
  deriving DecidableEq, Repr

/-- The function `getRegistryAuth`, with the events it produces. -/
def getRegistryAuth (apiClient : RancherClient) (image : GoString) :
    List Event × AuthResult :=
  match apiClient.RegistryList with
  | .error err => ([.registryList], ⟨[], [], some err⟩)
  | .ok regCollection =>
    let hostName := (splitHostName image).1
    match getRegistryAuth.regToPush hostName regCollection with
    | none =>
      ([.registryList, .Warningf (warningNoCredential image)], ⟨[], [], none⟩)
    | some regToPush =>
      match apiClient.RegistryCredentialList with
      | .error err => ([.registryList, .credentialList], ⟨[], [], some err⟩)
      | .ok regCredCollection =>
        match getRegistryAuth.regCredToPush regToPush.Id regCredCollection with
        | none =>
          ([.registryList, .credentialList, .Warningf (warningNoCredential image)],
            ⟨[], [], none⟩)
        | some regCredToPush =>
          ([.registryList, .credentialList],
            ⟨regCredToPush.PublicValue, regCredToPush.SecretValue, none⟩)

/-! ## Auth encoder: `encoding/json` and `encoding/base64` as the program uses them -/

/-- The fields of `types.AuthConfig`, in declaration order; each carries the
JSON tag `omitempty`. -/
structure AuthConfig where
  Username : GoString := []
  Password : GoString := []
  Auth : GoString := []
  Email : GoString := []
  ServerAddress : GoString := []
  IdentityToken : GoString := []
  RegistryToken : GoString := []
  deriving DecidableEq, Repr

namespace json

/-- The table `hex` of package json. -/
def hex : GoString := str "0123456789abcdef"

/-- The table `htmlSafeSet`: the ASCII bytes written without escaping, which are
the bytes from space to DEL other than the double quote, the backslash and the
characters less-than, greater-than and ampersand. -/
def htmlSafeSet (b : Byte) : Bool :=
  0x20 ≤ b.val && b.val < 0x80 && b != 0x22 && b != 0x5C && b != 0x3C && b != 0x3E && b != 0x26

/-- The escape written for an ASCII byte outside `htmlSafeSet`. -/
def escapeByte (b : Byte) : List Byte :=
  if b = 0x5C ∨ b = 0x22 then [0x5C, b]
  else if b = 0x0A then str "\\n"
  else if b = 0x0D then str "\\r"
  else if b = 0x09 then str "\\t"
  else str "\\u00" ++ [hex.getD (b.val / 16) 0, hex.getD (b.val % 16) 0]

/-- The loop of `encodeState.string` with HTML escaping: the bytes written for
the characters of `s`; `fuel` bounds the number of iterations. -/
def encodeState.stringLoop : Nat → GoString → List Byte
  | 0, _ => []
  | _ + 1, [] => []
  | fuel + 1, b :: rest =>
    if b.val < 0x80 then
      (if htmlSafeSet b then [b] else escapeByte b) ++ stringLoop fuel rest
    else
      let (c, size) := utf8.DecodeRuneInString (b :: rest)
      if c = utf8.RuneError ∧ size = 1 then
        str "\\ufffd" ++ stringLoop fuel rest
      else if c = 0x2028 ∨ c = 0x2029 then
        str "\\u202" ++ [hex.getD (c % 16) 0] ++ stringLoop fuel ((b :: rest).drop size)
      else
        (b :: rest).take size ++ stringLoop fuel ((b :: rest).drop size)

/-- The method `encodeState.string`: a Go string as a JSON string literal. -/
def encodeState.string (s : GoString) : List Byte :=
  [0x22] ++ encodeState.stringLoop s.length s ++ [0x22]

/-- The JSON keys of `types.AuthConfig` with the values of `a`, in field order. -/
def authFields (a : AuthConfig) : List (GoString × GoString) :=
  [(str "username", a.Username), (str "password", a.Password), (str "auth", a.Auth),
   (str "email", a.Email), (str "serveraddress", a.ServerAddress),
   (str "identitytoken", a.IdentityToken), (str "registrytoken", a.RegistryToken)]

/-- One member of the object: the quoted key, a colon, the encoded value. -/
def encodeMember (kv : GoString × GoString) : List Byte :=
  [0x22] ++ kv.1 ++ [0x22, 0x3A] ++ encodeState.string kv.2

/-- The function `json.Marshal` on a `types.AuthConfig`: an object holding the
non-empty fields, separated by commas.  It never fails on this type. -/
def Marshal (a : AuthConfig) : Except GoError (List Byte) :=
  .ok ([0x7B] ++ [0x2C].intercalate (((authFields a).filter fun kv => kv.2 != []).map encodeMember)
    ++ [0x7D])

end json

namespace base64

/-- The alphabet `encodeURL`. -/
def encodeURL : GoString :=
  str "ABCDEFGHIJKLMNOPQRSTUVWXYZabcdefghijklmnopqrstuvwxyz0123456789-_"

/-- The padding character `StdPadding`. -/
def StdPadding : Byte := 0x3D

/-- The character of a 6-bit value, `enc.encode[v & 0x3F]`. -/
def URLEncoding.encode (v : Nat) : Byte := encodeURL.getD (v % 64) 0

/-- The method `URLEncoding.EncodeToString`: three bytes become four
characters; a last group of one or two bytes is padded. -/
def URLEncoding.EncodeToString : List Byte → GoString
  | b0 :: b1 :: b2 :: rest =>
    let val := b0.val * 65536 + b1.val * 256 + b2.val
    [URLEncoding.encode (val / 262144), URLEncoding.encode (val / 4096),
     URLEncoding.encode (val / 64), URLEncoding.encode val] ++ EncodeToString rest
  | [b0, b1] =>
    let val := b0.val * 65536 + b1.val * 256
    [URLEncoding.encode (val / 262144), URLEncoding.encode (val / 4096),
     URLEncoding.encode (val / 64), StdPadding]
  | [b0] =>
    let val := b0.val * 65536
    [URLEncoding.encode (val / 262144), URLEncoding.encode (val / 4096),
     StdPadding, StdPadding]
  | [] => []

end base64

/-- The function `encodeAuthToBase64`. -/
def encodeAuthToBase64 (authConfig : AuthConfig) : Except GoError GoString :=
  match json.Marshal authConfig with
  | .error err => .error err
  | .ok buf => .ok (base64.URLEncoding.EncodeToString buf)

/-! ## Push driver and status stream interpreter -/

/-- The function `backwardVersion`: events, error, and the client version in
force afterwards. -/
def backwardVersion (env : DockerEnv) : List Event × Option GoError × GoString :=
  match env.Ping with
  | .error err => ([.ping], some err, env.ClientVersion)
  | .ok apiVersion =>
    let apiVersion := if apiVersion == [] then str "1.24" else apiVersion
    if env.LessThan apiVersion env.ClientVersion then
      ([.ping, .updateClientVersion apiVersion], none, apiVersion)
    else
      ([.ping], none, env.ClientVersion)

/-- The message of the final `logrus.Infof`. -/
def successMessage (image : GoString) : GoString :=
  str "Push image '" ++ image ++ str "' SUCCESS"

/-- The variable `msg` of the loop body: the status text, after the identifier
and a separator when the record has an identifier. -/
def pushImage.msg (message : JSONMessage) : GoString :=
  if message.ID != [] then message.ID ++ str ": " ++ message.Status else message.Status

/-- The events of the first `if` of the loop body: the status line of a record
whose progress text is empty and whose status text is not. -/
def pushImage.statusEvents (message : JSONMessage) : List Event :=
  if message.ProgressMessage == [] && message.Status != [] then
    [.Infoln (pushImage.msg message)]
  else []

/-- The decode loop of `pushImage` with what follows it: the events, the
returned error, and the part of the stream that was never decoded. -/
def pushImage.interpret (image : GoString) :
    List DecodeResult → List Event × Option GoError × List DecodeResult
  | [] => ([.Infof (successMessage image)], none, [])
  | .err e :: rest =>
    if e = .EOF then ([.Infof (successMessage image)], none, rest)
    else ([], some e, rest)
  | .msg message :: rest =>
    if message.Error != none then
      (pushImage.statusEvents message ++ [.Errorln message.ErrorMessage],
        some (fmt.Errorf_PushFail image), rest)
    else
      let r := interpret image rest
      (pushImage.statusEvents message ++ r.1, r.2)

/-- The function `pushImage`, with the events it produces. -/
def pushImage (env : DockerEnv) (image username password : GoString) :
    List Event × Outcome :=
  match env.NewEnvClient with
  | some err => ([.newEnvClient], .ret (some err))
  | none =>
    match backwardVersion env with
    | (ev, some err, _) => (.newEnvClient :: ev, .ret (some err))
    | (ev, none, version) =>
      let authConfig : AuthConfig := { Username := username, Password := password }
      match json.Marshal authConfig with
      | .error err => (.newEnvClient :: ev, .panic err)
      | .ok encodedJSON =>
        let authStr := base64.URLEncoding.EncodeToString encodedJSON
        match env.ImagePush version image authStr with
        | .error err => (.newEnvClient :: ev ++ [.imagePush image authStr], .ret (some err))
        | .ok out =>
          let r := pushImage.interpret image out
          (.newEnvClient :: ev ++ [.imagePush image authStr] ++ r.1 ++ [.close], .ret r.2.1)

/-- The function `AuthAndPush`, with the events it produces. -/
def AuthAndPush (apiClient : RancherClient) (env : DockerEnv) (image : GoString) :
    List Event × Outcome :=
  let r := getRegistryAuth apiClient image
  match r.2.err with
  | some err => (r.1, .ret (some err))
  | none =>
    let p := pushImage env image r.2.username r.2.password
    (r.1 ++ p.1, p.2)

/-! ## Decoding an auth token

The program only encodes.  The receiving side is modelled here so that the
round trip can be stated: base64 URL decoding, then parsing the JSON object. -/

namespace base64

/-- Modelled from the spec: the 6-bit value of a character of the URL-safe
alphabet (the decoding side of the token is not part of the program). -/
def URLEncoding.decodeMap (c : Byte) : Option Nat :=
  let i := encodeURL.indexOf c
  if i < 64 then some i else none

/-- Modelled from the spec: base64 URL-safe decoding with padding, the inverse
of `EncodeToString` (the decoding side of the token is not part of the
program).  Four characters give three bytes; the last group may end in one or
two padding characters; anything else is rejected. -/
def URLEncoding.DecodeString : GoString → Option (List Byte)
  | [] => some []
  | c0 :: c1 :: c2 :: c3 :: rest =>
    match URLEncoding.decodeMap c0, URLEncoding.decodeMap c1 with
    | some v0, some v1 =>
      if rest = [] ∧ c2 = StdPadding ∧ c3 = StdPadding then
        some [Fin.ofNat (v0 * 4 + v1 / 16)]
      else
        match URLEncoding.decodeMap c2 with
        | none => none
        | some v2 =>
          if rest = [] ∧ c3 = StdPadding then
            some [Fin.ofNat (v0 * 4 + v1 / 16), Fin.ofNat (v1 % 16 * 16 + v2 / 4)]
          else
            match URLEncoding.decodeMap c3 with
            | none => none
            | some v3 =>
              match DecodeString rest with
              | none => none
              | some bytes =>
                some (Fin.ofNat (v0 * 4 + v1 / 16) :: Fin.ofNat (v1 % 16 * 16 + v2 / 4)
                  :: Fin.ofNat (v2 % 4 * 64 + v3) :: bytes)
    | _, _ => none
  | _ => none

end base64

namespace json

/-- Modelled from the spec: the value of a hexadecimal digit (the decoding side
of the token is not part of the program). -/
def hexValue (b : Byte) : Option Nat :=
  if 0x30 ≤ b.val ∧ b.val ≤ 0x39 then some (b.val - 0x30)
  else if 0x61 ≤ b.val ∧ b.val ≤ 0x66 then some (b.val - 0x61 + 10)
  else if 0x41 ≤ b.val ∧ b.val ≤ 0x46 then some (b.val - 0x41 + 10)
  else none

/-- Modelled from the spec: the four hexadecimal digits of a `\u` escape and
what follows them (the decoding side of the token is not part of the
program). -/
def getu4 : GoString → Option (Nat × GoString)
  | h0 :: h1 :: h2 :: h3 :: rest =>
    match hexValue h0, hexValue h1, hexValue h2, hexValue h3 with
    | some a, some b, some c, some d => some (a * 4096 + b * 256 + c * 16 + d, rest)
    | _, _, _, _ => none
  | _ => none

/-- Modelled from the spec: the character a one-letter escape stands for (the
decoding side of the token is not part of the program). -/
def simpleEscape (e : Byte) : Option Byte :=
  if e = 0x22 ∨ e = 0x5C ∨ e = 0x2F then some e
  else if e = 0x62 then some 0x08
  else if e = 0x66 then some 0x0C
  else if e = 0x6E then some 0x0A
  else if e = 0x72 then some 0x0D
  else if e = 0x74 then some 0x09
  else none

/-- Modelled from the spec: the body of a JSON string literal, read up to its
closing quote: the decoded bytes and the input after the quote (the decoding
side of the token is not part of the program).  Escapes are resolved, a
surrogate pair gives one character, an unpaired surrogate and an invalid byte
sequence give U+FFFD, a raw control character is rejected. -/
def unquoteLoop : Nat → GoString → List Byte → Option (GoString × GoString)
  | 0, _, _ => none
  | _ + 1, [], _ => none
  | fuel + 1, b :: rest, acc =>
    if b = 0x22 then some (acc, rest)
    else if b = 0x5C then
      match rest with
      | [] => none
      | e :: rest2 =>
        if e = 0x75 then
          match getu4 rest2 with
          | none => none
          | some (r, rest3) =>
            if 0xD800 ≤ r ∧ r < 0xDC00 then
              match rest3 with
              | b1 :: e1 :: rest4 =>
                match getu4 rest4 with
                | some (r2, rest5) =>
                  if b1 = 0x5C ∧ e1 = 0x75 ∧ 0xDC00 ≤ r2 ∧ r2 < 0xE000 then
                    unquoteLoop fuel rest5
                      (acc ++ utf8.EncodeRune (0x10000 + (r - 0xD800) * 1024 + (r2 - 0xDC00)))
                  else unquoteLoop fuel rest3 (acc ++ utf8.EncodeRune utf8.RuneError)
                | none => unquoteLoop fuel rest3 (acc ++ utf8.EncodeRune utf8.RuneError)
              | _ => unquoteLoop fuel rest3 (acc ++ utf8.EncodeRune utf8.RuneError)
            else unquoteLoop fuel rest3 (acc ++ utf8.EncodeRune r)
        else
          match simpleEscape e with
          | none => none
          | some x => unquoteLoop fuel rest2 (acc ++ [x])
    else if b.val < 0x20 then none
    else if b.val < 0x80 then unquoteLoop fuel rest (acc ++ [b])
    else
      let (rr, size) := utf8.DecodeRuneInString (b :: rest)
      unquoteLoop fuel ((b :: rest).drop size) (acc ++ utf8.EncodeRune rr)

/-- Modelled from the spec: a JSON string literal at the head of the input,
after its opening quote (the decoding side of the token is not part of the
program). -/
def unquote (s : GoString) : Option (GoString × GoString) :=
  unquoteLoop s.length s []

/-- Modelled from the spec: the members of a JSON object whose values are
strings, read from the first key to the closing brace, which must end the
input (the decoding side of the token is not part of the program). -/
def parseMembers : Nat → GoString → List (GoString × GoString) →
    Option (List (GoString × GoString))
  | 0, _, _ => none
  | _ + 1, [], _ => none
  | fuel + 1, q :: s1, acc =>
    if q ≠ 0x22 then none
    else
      match unquote s1 with
      | some (key, c :: q2 :: s2) =>
        if c ≠ 0x3A ∨ q2 ≠ 0x22 then none
        else
          match unquote s2 with
          | some (val, d :: s3) =>
            if d = 0x7D ∧ s3 = [] then some (acc ++ [(key, val)])
            else if d = 0x2C then parseMembers fuel s3 (acc ++ [(key, val)])
            else none
          | _ => none
      | _ => none

/-- Modelled from the spec: a JSON object of string members in compact form
(the decoding side of the token is not part of the program). -/
def parseObject : GoString → Option (List (GoString × GoString))
  | [] => none
  | b :: rest =>
    if b ≠ 0x7B then none
    else if rest = [0x7D] then some []
    else parseMembers rest.length rest []

/-- Modelled from the spec: storing one member into a `types.AuthConfig` by its
JSON key; an unknown key is ignored (the decoding side of the token is not
part of the program). -/
def setField (a : AuthConfig) (kv : GoString × GoString) : AuthConfig :=
  if kv.1 = str "username" then { a with Username := kv.2 }
  else if kv.1 = str "password" then { a with Password := kv.2 }
  else if kv.1 = str "auth" then { a with Auth := kv.2 }
  else if kv.1 = str "email" then { a with Email := kv.2 }
  else if kv.1 = str "serveraddress" then { a with ServerAddress := kv.2 }
  else if kv.1 = str "identitytoken" then { a with IdentityToken := kv.2 }
  else if kv.1 = str "registrytoken" then { a with RegistryToken := kv.2 }
  else a

/-- Modelled from the spec: parsing the JSON record of an auth token into a
`types.AuthConfig` (the decoding side of the token is not part of the
program). -/
def Unmarshal (data : List Byte) : Option AuthConfig :=
  (parseObject data).map fun members => members.foldl setField {}

end json

/-- Modelled from the spec: decoding an auth token: base64 URL-safe decoding,
then parsing the JSON record (the decoding side of the token is not part of
the program). -/
def decodeAuthFromBase64 (token : GoString) : Option AuthConfig :=
  (base64.URLEncoding.DecodeString token).bind json.Unmarshal

/-- The token of a username and a password decodes to that username and
password. -/
def roundTrips (username password : GoString) : Bool :=
  match encodeAuthToBase64 { Username := username, Password := password } with
  | .error _ => false
  | .ok token =>
    match decodeAuthFromBase64 token with
    | none => false
    | some a => a.Username == username && a.Password == password

/-! ## Host parser: proofs -/

theorem str_slash : str "/" = [0x2F] := by decide

theorem str_dot_colon : str ".:" = [0x2E, 0x3A] := by decide

theorem Index_go_absent (s : GoString) (k : Nat) (h : (0x2F : Byte) ∉ s) :
    strings.Index.go [0x2F] s k = -1 := by
  induction s generalizing k with
  | nil => simp [strings.Index.go]
  | cons c cs ih =>
    have hc : (0x2F : Byte) ≠ c := fun e => h (by simp [e])
    have hcs : (0x2F : Byte) ∉ cs := fun e => h (by simp [e])
    simp [strings.Index.go, List.isPrefixOf, hc, ih _ hcs]

theorem Index_go_first (pre post : GoString) (k : Nat) (h : (0x2F : Byte) ∉ pre) :
    strings.Index.go [0x2F] (pre ++ 0x2F :: post) k = ((k + pre.length : Nat) : Int) := by
  induction pre generalizing k with
  | nil => simp [strings.Index.go, List.isPrefixOf]
  | cons c cs ih =>
    have hc : (0x2F : Byte) ≠ c := fun e => h (by simp [e])
    have hcs : (0x2F : Byte) ∉ cs := fun e => h (by simp [e])
    simp only [List.cons_append, strings.Index.go, List.isPrefixOf]
    simp [hc, ih _ hcs]
    omega

theorem ContainsAny_dot_colon (s : GoString) :
    strings.ContainsAny s [0x2E, 0x3A] = true ↔ (0x2E : Byte) ∈ s ∨ (0x3A : Byte) ∈ s := by
  simp only [strings.ContainsAny, List.any_eq_true]
  constructor
  · rintro ⟨b, hb, hc⟩
    simp at hc
    rcases hc with rfl | rfl
    · exact Or.inl hb
    · exact Or.inr hb
  · rintro (h | h)
    · exact ⟨_, h, by simp⟩
    · exact ⟨_, h, by simp⟩

theorem splitHostName_of_split (pre post : GoString) (h : (0x2F : Byte) ∉ pre) :
    splitHostName (pre ++ 0x2F :: post) =
      if strings.ContainsAny pre [0x2E, 0x3A] = true ∨ pre = str "localhost" then (pre, post)
      else (DEFAULT_REGISTRY, pre ++ 0x2F :: post) := by
  have hi : strings.Index (pre ++ 0x2F :: post) (str "/") = (pre.length : Int) := by
    simp [strings.Index, str_slash, Index_go_first pre post 0 h]
  have h1 : sliceTo (pre ++ 0x2F :: post) (pre.length : Int) = pre := by
    simp [sliceTo]
  have h2 : sliceFrom (pre ++ 0x2F :: post) ((pre.length : Int) + 1) = post := by
    have : ((pre.length : Int) + 1).toNat = pre.length + 1 := by omega
    simp [sliceFrom, this]
  have h3 : ((pre.length : Int) == -1) = false := by
    simp only [beq_eq_false_iff_ne, ne_eq]; omega
  simp only [splitHostName, hi, h1, h2, h3, str_dot_colon, Bool.false_or]
  by_cases hc : strings.ContainsAny pre [0x2E, 0x3A] = true
  · simp [hc]
  · by_cases hl : pre = str "localhost"
    · simp [hl]
    · simp [hc, hl]

/-- Claim C1: an image reference without a slash, or whose part before the first
slash has no dot, no colon and is not `localhost`, is given the default
registry as host and is itself, unchanged, the repository path. -/
theorem splitHostName_default_registry (image : GoString)
    (h : (0x2F : Byte) ∉ image ∨
      ∃ pre post, image = pre ++ 0x2F :: post ∧ (0x2F : Byte) ∉ pre ∧
        (0x2E : Byte) ∉ pre ∧ (0x3A : Byte) ∉ pre ∧ pre ≠ str "localhost") :
    splitHostName image = (DEFAULT_REGISTRY, image) ∧ DEFAULT_REGISTRY = str "index.docker.io" := by
  refine ⟨?_, rfl⟩
  rcases h with h | ⟨pre, post, rfl, hs, hd, hc, hl⟩
  · have hi : strings.Index image (str "/") = -1 := by
      simp [strings.Index, str_slash, Index_go_absent image 0 h]
    simp [splitHostName, hi]
  · rw [splitHostName_of_split pre post hs]
    have : ¬ (strings.ContainsAny pre [0x2E, 0x3A] = true) := by
      rw [ContainsAny_dot_colon]; tauto
    simp [this, hl]

/-- Witness of claim C1: `myrepo/app:latest`. -/
theorem splitHostName_default_registry_witness :
    splitHostName (str "myrepo/app:latest") = (str "index.docker.io", str "myrepo/app:latest") :=
  (splitHostName_default_registry (str "myrepo/app:latest")
    (Or.inr ⟨str "myrepo", str "app:latest", by decide, by decide, by decide, by decide,
      by decide⟩)).1

/-- Claim C2: an image reference with a slash whose part before the first slash
has a dot or a colon, or is `localhost`, is split at that slash: the host is
the part before it and has no slash, the path is the part after it, and host,
slash and path together are the reference. -/
theorem splitHostName_explicit_host (image pre post : GoString)
    (himage : image = pre ++ 0x2F :: post) (hfirst : (0x2F : Byte) ∉ pre)
    (hhost : (0x2E : Byte) ∈ pre ∨ (0x3A : Byte) ∈ pre ∨ pre = str "localhost") :
    splitHostName image = (pre, post) ∧
      (0x2F : Byte) ∉ (splitHostName image).1 ∧
      (splitHostName image).1 ++ str "/" ++ (splitHostName image).2 = image := by
  subst himage
  have hs : splitHostName (pre ++ 0x2F :: post) = (pre, post) := by
    rw [splitHostName_of_split pre post hfirst]
    have : strings.ContainsAny pre [0x2E, 0x3A] = true ∨ pre = str "localhost" := by
      rw [ContainsAny_dot_colon]; tauto
    simp [this]
  refine ⟨hs, ?_, ?_⟩
  · rw [hs]; exact hfirst
  · rw [hs, str_slash]; simp

/-- Witness of claim C2: `registry.example.com:5000/app`. -/
theorem splitHostName_explicit_host_witness :
    splitHostName (str "registry.example.com:5000/app") =
      (str "registry.example.com:5000", str "app") :=
  (splitHostName_explicit_host (str "registry.example.com:5000/app")
    (str "registry.example.com:5000") (str "app") (by decide) (by decide)
    (Or.inl (by decide))).1

/-! ## Credential resolver: proofs -/

theorem regToPush_first (hostName : GoString) (pre post : List Registry) (reg : Registry)
    (hpre : ∀ r ∈ pre, r.ServerAddress ≠ hostName) (hreg : reg.ServerAddress = hostName) :
    getRegistryAuth.regToPush hostName (pre ++ reg :: post) = some reg := by
  induction pre with
  | nil => simp [getRegistryAuth.regToPush, hreg]
  | cons r rs ih =>
    have hr : r.ServerAddress ≠ hostName := hpre r (by simp)
    have hrs : ∀ x ∈ rs, x.ServerAddress ≠ hostName := fun x hx => hpre x (by simp [hx])
    simp [getRegistryAuth.regToPush, hr, ih hrs]

theorem regToPush_none (hostName : GoString) (regs : List Registry)
    (h : ∀ r ∈ regs, r.ServerAddress ≠ hostName) :
    getRegistryAuth.regToPush hostName regs = none := by
  induction regs with
  | nil => rfl
  | cons r rs ih =>
    have hr : r.ServerAddress ≠ hostName := h r (by simp)
    have hrs : ∀ x ∈ rs, x.ServerAddress ≠ hostName := fun x hx => h x (by simp [hx])
    simp [getRegistryAuth.regToPush, hr, ih hrs]

theorem regCredToPush_first (regId : GoString) (pre post : List RegistryCredential)
    (cred : RegistryCredential)
    (hpre : ∀ c ∈ pre, c.RegistryId ≠ regId) (hcred : cred.RegistryId = regId) :
    getRegistryAuth.regCredToPush regId (pre ++ cred :: post) = some cred := by
  induction pre with
  | nil => simp [getRegistryAuth.regCredToPush, hcred]
  | cons c cs ih =>
    have hc : c.RegistryId ≠ regId := hpre c (by simp)
    have hcs : ∀ x ∈ cs, x.RegistryId ≠ regId := fun x hx => hpre x (by simp [hx])
    simp [getRegistryAuth.regCredToPush, hc, ih hcs]

theorem regCredToPush_none (regId : GoString) (creds : List RegistryCredential)
    (h : ∀ c ∈ creds, c.RegistryId ≠ regId) :
    getRegistryAuth.regCredToPush regId creds = none := by
  induction creds with
  | nil => rfl
  | cons c cs ih =>
    have hc : c.RegistryId ≠ regId := h c (by simp)
    have hcs : ∀ x ∈ cs, x.RegistryId ≠ regId := fun x hx => h x (by simp [hx])
    simp [getRegistryAuth.regCredToPush, hc, ih hcs]

/-- Claim C3: when both listings succeed, the first registry in list order whose
server address is the host of the image has a credential, and `cred` is the
first credential in list order whose registry id is the id of that registry,
`getRegistryAuth` returns the public and the secret value of `cred` and no
error. -/
theorem getRegistryAuth_returns_first_credential (apiClient : RancherClient)
    (image : GoString) (preR postR : List Registry) (reg : Registry)
    (preC postC : List RegistryCredential) (cred : RegistryCredential)
    (hR : apiClient.RegistryList = .ok (preR ++ reg :: postR))
    (hC : apiClient.RegistryCredentialList = .ok (preC ++ cred :: postC))
    (hpreR : ∀ r ∈ preR, r.ServerAddress ≠ (splitHostName image).1)
    (hreg : reg.ServerAddress = (splitHostName image).1)
    (hpreC : ∀ c ∈ preC, c.RegistryId ≠ reg.Id)
    (hcred : cred.RegistryId = reg.Id) :
    (getRegistryAuth apiClient image).2 =
      { username := cred.PublicValue, password := cred.SecretValue, err := none } := by
  simp [getRegistryAuth, hR, hC, regToPush_first _ preR postR reg hpreR hreg,
    regCredToPush_first _ preC postC cred hpreC hcred]

/-- Witness of claim C3: two registries with the address of the image, two
credentials of the first of them. -/
theorem getRegistryAuth_returns_first_credential_witness :
    (getRegistryAuth
      { RegistryList := .ok [⟨str "1r1", str "quay.io"⟩, ⟨str "1r2", str "reg.io"⟩,
          ⟨str "1r3", str "reg.io"⟩],
        RegistryCredentialList := .ok [⟨str "1r3", str "u3", str "s3"⟩,
          ⟨str "1r2", str "u2", str "s2"⟩, ⟨str "1r2", str "other", str "secret"⟩] }
      (str "reg.io/app")).2 =
      { username := str "u2", password := str "s2", err := none } :=
  getRegistryAuth_returns_first_credential _ (str "reg.io/app")
    [⟨str "1r1", str "quay.io"⟩] [⟨str "1r3", str "reg.io"⟩] ⟨str "1r2", str "reg.io"⟩
    [⟨str "1r3", str "u3", str "s3"⟩] [⟨str "1r2", str "other", str "secret"⟩]
    ⟨str "1r2", str "u2", str "s2"⟩ rfl rfl (by decide) (by decide) (by decide) (by decide)

/-- Claim C4: when the registry listing succeeds and no registry has the host of
the image as server address, `getRegistryAuth` returns an empty username, an
empty password and no error, whatever the credential catalog would answer: the
credential catalog is not queried. -/
theorem getRegistryAuth_no_registry (image : GoString) (regs : List Registry)
    (credAnswer : Except GoError (List RegistryCredential))
    (hno : ∀ r ∈ regs, r.ServerAddress ≠ (splitHostName image).1) :
    (getRegistryAuth { RegistryList := .ok regs, RegistryCredentialList := credAnswer } image).2 =
        { username := [], password := [], err := none } ∧
      Event.credentialList ∉
        (getRegistryAuth { RegistryList := .ok regs, RegistryCredentialList := credAnswer }
          image).1 := by
  simp [getRegistryAuth, regToPush_none _ regs hno]

/-- Witness of claim C4: the credential listing would fail. -/
theorem getRegistryAuth_no_registry_witness :
    (getRegistryAuth
      { RegistryList := .ok [⟨str "1r1", str "quay.io"⟩],
        RegistryCredentialList := .error (.other (str "timeout")) } (str "reg.io/app")).2 =
      { username := [], password := [], err := none } :=
  (getRegistryAuth_no_registry (str "reg.io/app") [⟨str "1r1", str "quay.io"⟩]
    (.error (.other (str "timeout"))) (by decide)).1

/-- Claim C5: when both listings succeed, `reg` is the first registry whose server
address is the host of the image, and no credential has the id of `reg` as
registry id, `getRegistryAuth` returns an empty username, an empty password and
no error. -/
theorem getRegistryAuth_no_credential (apiClient : RancherClient) (image : GoString)
    (preR postR : List Registry) (reg : Registry) (creds : List RegistryCredential)
    (hR : apiClient.RegistryList = .ok (preR ++ reg :: postR))
    (hC : apiClient.RegistryCredentialList = .ok creds)
    (hpreR : ∀ r ∈ preR, r.ServerAddress ≠ (splitHostName image).1)
    (hreg : reg.ServerAddress = (splitHostName image).1)
    (hno : ∀ c ∈ creds, c.RegistryId ≠ reg.Id) :
    (getRegistryAuth apiClient image).2 = { username := [], password := [], err := none } := by
  simp [getRegistryAuth, hR, hC, regToPush_first _ preR postR reg hpreR hreg,
    regCredToPush_none _ creds hno]

/-- Witness of claim C5: the only credential belongs to another registry. -/
theorem getRegistryAuth_no_credential_witness :
    (getRegistryAuth
      { RegistryList := .ok [⟨str "1r1", str "quay.io"⟩, ⟨str "1r2", str "reg.io"⟩],
        RegistryCredentialList := .ok [⟨str "1r1", str "u1", str "s1"⟩] }
      (str "reg.io/app")).2 = { username := [], password := [], err := none } :=
  getRegistryAuth_no_credential _ (str "reg.io/app") [⟨str "1r1", str "quay.io"⟩] []
    ⟨str "1r2", str "reg.io"⟩ [⟨str "1r1", str "u1", str "s1"⟩] rfl rfl (by decide) (by decide)
    (by decide)

/-- Claim C10: a listing error aborts.  When listing registries fails with `e`,
`getRegistryAuth` returns empty strings and `e` and the credential catalog is
not queried; when a registry has the host of the image and listing credentials
fails with `e`, `getRegistryAuth` returns empty strings and `e`.  In both cases
`AuthAndPush` returns `e` and nothing of the push is done: no Docker client is
made and no push request is sent. -/
theorem listing_error_aborts (env : DockerEnv) (image : GoString) (e : GoError) :
    (∀ credAnswer : Except GoError (List RegistryCredential),
      getRegistryAuth { RegistryList := .error e, RegistryCredentialList := credAnswer } image =
        ([.registryList], { username := [], password := [], err := some e }) ∧
      AuthAndPush { RegistryList := .error e, RegistryCredentialList := credAnswer } env image =
        ([.registryList], .ret (some e))) ∧
    (∀ regs : List Registry, (∃ r ∈ regs, r.ServerAddress = (splitHostName image).1) →
      getRegistryAuth { RegistryList := .ok regs, RegistryCredentialList := .error e } image =
        ([.registryList, .credentialList], { username := [], password := [], err := some e }) ∧
      AuthAndPush { RegistryList := .ok regs, RegistryCredentialList := .error e } env image =
        ([.registryList, .credentialList], .ret (some e))) := by
  refine ⟨fun credAnswer => ?_, fun regs hex => ?_⟩
  · simp [AuthAndPush, getRegistryAuth]
  · have hsome : ∃ reg, getRegistryAuth.regToPush (splitHostName image).1 regs = some reg := by
      obtain ⟨r, hr, hrs⟩ := hex
      induction regs with
      | nil => simp at hr
      | cons x xs ih =>
        by_cases hx : x.ServerAddress = (splitHostName image).1
        · exact ⟨x, by simp [getRegistryAuth.regToPush, hx]⟩
        · have hrx : r ∈ xs := by
            rcases List.mem_cons.mp hr with h | h
            · exact absurd (h ▸ hrs) hx
            · exact h
          obtain ⟨reg, hreg⟩ := ih hrx
          exact ⟨reg, by simp [getRegistryAuth.regToPush, hx, hreg]⟩
    obtain ⟨reg, hreg⟩ := hsome
    simp [AuthAndPush, getRegistryAuth, hreg]

/-- Witness of claim C10: the registry of the image is known and the credential
listing fails. -/
theorem listing_error_aborts_witness :
    AuthAndPush
      { RegistryList := .ok [⟨str "1r2", str "reg.io"⟩],
        RegistryCredentialList := .error (.other (str "timeout")) }
      { NewEnvClient := none, Ping := .ok (str "1.30"), ClientVersion := str "1.30",
        LessThan := fun _ _ => false, ImagePush := fun _ _ _ => .ok [] }
      (str "reg.io/app") =
      ([.registryList, .credentialList], .ret (some (.other (str "timeout")))) :=
  ((listing_error_aborts _ (str "reg.io/app") (.other (str "timeout"))).2
    [⟨str "1r2", str "reg.io"⟩] ⟨⟨str "1r2", str "reg.io"⟩, by decide, by decide⟩).2

/-! ## Status stream interpreter: proofs -/

theorem interpret_msg_error (image : GoString) (m : JSONMessage) (rest : List DecodeResult)
    (hm : m.Error ≠ none) :
    pushImage.interpret image (.msg m :: rest) =
      (pushImage.statusEvents m ++ [.Errorln m.ErrorMessage],
        some (fmt.Errorf_PushFail image), rest) := by
  simp [pushImage.interpret, hm]

theorem interpret_msg_ok (image : GoString) (m : JSONMessage) (rest : List DecodeResult)
    (hm : m.Error = none) :
    pushImage.interpret image (.msg m :: rest) =
      (pushImage.statusEvents m ++ (pushImage.interpret image rest).1,
        (pushImage.interpret image rest).2) := by
  simp [pushImage.interpret, hm]

theorem interpret_clean_records (image : GoString) (pre : List JSONMessage) (rest : List DecodeResult)
    (hpre : ∀ p ∈ pre, p.Error = none) :
    pushImage.interpret image (pre.map .msg ++ rest) =
      (pre.flatMap pushImage.statusEvents ++ (pushImage.interpret image rest).1,
        (pushImage.interpret image rest).2) := by
  induction pre with
  | nil => simp
  | cons p ps ih =>
    have hp : p.Error = none := hpre p (by simp)
    have hps : ∀ x ∈ ps, x.Error = none := fun x hx => hpre x (by simp [hx])
    simp [interpret_msg_ok _ _ _ hp, ih hps]

theorem Infof_not_mem_statusEvents (msg : GoString) (ms : List JSONMessage) :
    Event.Infof msg ∉ ms.flatMap pushImage.statusEvents := by
  simp only [List.mem_flatMap, not_exists, not_and]
  intro m _ h
  unfold pushImage.statusEvents at h
  split at h <;> simp at h

/-- Counterexample to claim C6 as stated: in the stream of the object with the
key `status` of value `Pushed` followed by the object with the only key `error`
of value `denied`, the second record has no error indicator, because the key
`error` fills `ErrorMessage` and leaves `Error` nil: the loop logs `Pushed`,
reaches the end of the stream, logs the success message and returns no
error. -/
theorem error_key_alone_is_no_error_record :
    (jsonmessage.Decode { error := some (str "denied") }).Error = none ∧
      pushImage.interpret (str "reg.io/app")
          [.msg (jsonmessage.Decode { status := some (str "Pushed") }),
           .msg (jsonmessage.Decode { error := some (str "denied") })] =
        ([.Infoln (str "Pushed"), .Infof (str "Push image 'reg.io/app' SUCCESS")], none, []) := by
  decide

/-- Claim C6, amended: in a status stream whose first record with an error
indicator, `m`, comes after successfully decoded records without one, the loop
of `pushImage` stops at `m`: it returns the error with message
`Push image '<image>' FAIL`, the log is the status lines of the records up to
`m` followed by the error line of `m`, what follows `m` is left undecoded and
changes neither the error nor the log, and the success message is not logged.
The error indicator of a record is set exactly when its status object has the
key `errorDetail`; the key `error` does not set it. -/
theorem interpret_stops_at_error_record (image : GoString) (pre : List JSONMessage)
    (m : JSONMessage) (rest : List DecodeResult)
    (hpre : ∀ p ∈ pre, p.Error = none) (hm : m.Error ≠ none) :
    pushImage.interpret image (pre.map .msg ++ .msg m :: rest) =
        (pre.flatMap pushImage.statusEvents ++ pushImage.statusEvents m ++
          [.Errorln m.ErrorMessage], some (fmt.Errorf_PushFail image), rest) ∧
      (fmt.Errorf_PushFail image).Error = str "Push image '" ++ image ++ str "' FAIL" ∧
      (∀ rest2 : List DecodeResult,
        (pushImage.interpret image (pre.map .msg ++ .msg m :: rest2)).1 =
          (pushImage.interpret image (pre.map .msg ++ .msg m :: rest)).1 ∧
        (pushImage.interpret image (pre.map .msg ++ .msg m :: rest2)).2.1 =
          (pushImage.interpret image (pre.map .msg ++ .msg m :: rest)).2.1) ∧
      (∀ msg : GoString,
        Event.Infof msg ∉ (pushImage.interpret image (pre.map .msg ++ .msg m :: rest)).1) ∧
      (∀ o : StatusObject, (jsonmessage.Decode o).Error ≠ none ↔ o.errorDetail ≠ none) := by
  have key : ∀ r : List DecodeResult,
      pushImage.interpret image (pre.map .msg ++ .msg m :: r) =
        (pre.flatMap pushImage.statusEvents ++ pushImage.statusEvents m ++
          [.Errorln m.ErrorMessage], some (fmt.Errorf_PushFail image), r) := by
    intro r
    rw [interpret_clean_records image pre _ hpre, interpret_msg_error image m r hm]
    simp
  refine ⟨key rest, rfl, fun rest2 => ?_, fun msg => ?_, fun o => ?_⟩
  · rw [key rest2, key rest]; exact ⟨rfl, rfl⟩
  · rw [key rest]
    have h1 := Infof_not_mem_statusEvents msg pre
    have h2 := Infof_not_mem_statusEvents msg [m]
    simp only [List.flatMap_cons, List.flatMap_nil, List.append_nil] at h2
    simp [h1, h2]
  · cases h : o.errorDetail <;> simp [jsonmessage.Decode, h]

/-- Witness of claim C6, amended: the object with status `Pushed`, then the
object with both keys `errorDetail` (message `denied`) and `error` (`denied`),
then one more object: `Pushed` is logged, then `denied`, the push-failed error
is returned and the last object is not decoded. -/
theorem interpret_stops_at_error_record_witness :
    pushImage.interpret (str "reg.io/app")
        [.msg (jsonmessage.Decode { status := some (str "Pushed") }),
         .msg (jsonmessage.Decode
           { errorDetail := some { message := some (str "denied") },
             error := some (str "denied") }),
         .msg (jsonmessage.Decode { status := some (str "late") })] =
      ([.Infoln (str "Pushed"), .Errorln (str "denied")],
        some (.other (str "Push image 'reg.io/app' FAIL")),
        [.msg (jsonmessage.Decode { status := some (str "late") })]) :=
  (interpret_stops_at_error_record (str "reg.io/app")
    [jsonmessage.Decode { status := some (str "Pushed") }]
    (jsonmessage.Decode
      { errorDetail := some { message := some (str "denied") }, error := some (str "denied") })
    [.msg (jsonmessage.Decode { status := some (str "late") })] (by decide) (by decide)).1

/-- Counterexample to claim C7 as stated: an error record with an empty progress
text and the status `Pushed` has its status logged at info level before its
error message is logged. -/
theorem error_record_status_is_logged :
    pushImage.interpret (str "reg.io/app")
        [.msg { Status := str "Pushed", Error := some ⟨0, str "denied"⟩,
                ErrorMessage := str "denied" }] =
      ([.Infoln (str "Pushed"), .Errorln (str "denied")],
        some (.other (str "Push image 'reg.io/app' FAIL")), []) := by
  decide

/-- Claim C7, amended: a record with an error indicator has its error message
logged at error level and ends the loop with the push-failed error; before
that, its status line is logged at info level exactly when its progress text
is empty and its status text is not, as for any other record. -/
theorem interpret_error_record (image : GoString) (m : JSONMessage)
    (rest : List DecodeResult) (hm : m.Error ≠ none) :
    (m.ProgressMessage = [] ∧ m.Status ≠ [] →
      pushImage.interpret image (.msg m :: rest) =
        ([.Infoln (pushImage.msg m), .Errorln m.ErrorMessage],
          some (fmt.Errorf_PushFail image), rest)) ∧
    (¬ (m.ProgressMessage = [] ∧ m.Status ≠ []) →
      pushImage.interpret image (.msg m :: rest) =
        ([.Errorln m.ErrorMessage], some (fmt.Errorf_PushFail image), rest)) := by
  rw [interpret_msg_error image m rest hm]
  constructor
  · rintro ⟨h1, h2⟩
    simp [pushImage.statusEvents, h1, h2]
  · intro h
    have : (m.ProgressMessage == [] && m.Status != []) = false := by
      by_cases h1 : m.ProgressMessage = []
      · by_cases h2 : m.Status = []
        · simp [h1, h2]
        · exact absurd ⟨h1, h2⟩ h
      · simp [h1]
    simp only [pushImage.statusEvents, this]
    simp

/-- Witness of claim C7, amended: an error record with an identifier and a
status. -/
theorem interpret_error_record_witness :
    pushImage.interpret (str "reg.io/app")
        [.msg { ID := str "5f70bf18a086", Status := str "Pushing",
                Error := some ⟨0, str "denied"⟩, ErrorMessage := str "denied" }] =
      ([.Infoln (str "5f70bf18a086: Pushing"), .Errorln (str "denied")],
        some (.other (str "Push image 'reg.io/app' FAIL")), []) :=
  (interpret_error_record (str "reg.io/app")
    { ID := str "5f70bf18a086", Status := str "Pushing", Error := some ⟨0, str "denied"⟩,
      ErrorMessage := str "denied" } [] (by decide)).1 (by decide)

/-- Claim C8: a stream of progress records only (each with a non-empty progress
text and no error indicator) that ends in end-of-stream logs no line for any
record: the only event, and the only info-level line, is the success message,
and the loop returns no error. -/
theorem interpret_progress_only (image : GoString) (ms : List JSONMessage)
    (h : ∀ m ∈ ms, m.ProgressMessage ≠ [] ∧ m.Error = none) :
    pushImage.interpret image (ms.map .msg) =
        ([.Infof (successMessage image)], none, []) ∧
      (∀ msg : GoString, Event.Infoln msg ∉ (pushImage.interpret image (ms.map .msg)).1) ∧
      (∀ e ∈ (pushImage.interpret image (ms.map .msg)).1,
        e.level = some Level.info → e = Event.Infof (successMessage image)) ∧
      successMessage image = str "Push image '" ++ image ++ str "' SUCCESS" := by
  have key : pushImage.interpret image (ms.map .msg) =
      ([.Infof (successMessage image)], none, []) := by
    have hp := interpret_clean_records image ms [] (fun p hp => (h p hp).2)
    rw [List.append_nil] at hp
    rw [hp]
    have hnil : ms.flatMap pushImage.statusEvents = [] := by
      rw [List.flatMap_eq_nil_iff]
      intro m hm
      simp [pushImage.statusEvents, (h m hm).1]
    simp [hnil, pushImage.interpret]
  refine ⟨key, fun msg => ?_, fun e he _ => ?_, rfl⟩
  · rw [key]; simp
  · rw [key] at he
    simpa using he

/-- Witness of claim C8: two progress records. -/
theorem interpret_progress_only_witness :
    pushImage.interpret (str "reg.io/app")
        [.msg { ID := str "5f70bf18a086", Status := str "Pushing",
                ProgressMessage := str "1.5 MB/3 MB" },
         .msg { ID := str "5f70bf18a086", Status := str "Pushing",
                ProgressMessage := str "3 MB/3 MB" }] =
      ([.Infof (str "Push image 'reg.io/app' SUCCESS")], none, []) :=
  (interpret_progress_only (str "reg.io/app")
    [{ ID := str "5f70bf18a086", Status := str "Pushing", ProgressMessage := str "1.5 MB/3 MB" },
     { ID := str "5f70bf18a086", Status := str "Pushing", ProgressMessage := str "3 MB/3 MB" }]
    (by decide)).1

/-! ## Auth encoder: proofs -/

theorem decodeMap_encode : ∀ v : Fin 64,
    base64.URLEncoding.decodeMap (base64.URLEncoding.encode v.val) = some v.val := by
  decide

theorem decodeMap_encode_nat (v : Nat) :
    base64.URLEncoding.decodeMap (base64.URLEncoding.encode v) = some (v % 64) := by
  have h := decodeMap_encode ⟨v % 64, Nat.mod_lt _ (by decide)⟩
  simp only [base64.URLEncoding.encode, Nat.mod_mod] at h ⊢
  exact h

theorem encode_ne_padding (v : Nat) : base64.URLEncoding.encode v ≠ base64.StdPadding := by
  intro h
  have h1 := decodeMap_encode_nat v
  have hp : base64.URLEncoding.decodeMap base64.StdPadding = none := by decide
  rw [h, hp] at h1
  cases h1

theorem ofNat_eq_byte (b : Byte) (n : Nat) (h : n = b.val) : (Fin.ofNat n : Byte) = b := by
  apply Fin.ext
  simp only [Fin.ofNat, h]
  omega

theorem base64_round_trip (bs : List Byte) :
    base64.URLEncoding.DecodeString (base64.URLEncoding.EncodeToString bs) = some bs := by
  induction bs using base64.URLEncoding.EncodeToString.induct with
  | case1 b0 b1 b2 rest ih =>
    have h0 := b0.isLt
    have h1 := b1.isLt
    have h2 := b2.isLt
    simp only [base64.URLEncoding.EncodeToString, List.cons_append, List.nil_append,
      base64.URLEncoding.DecodeString, decodeMap_encode_nat, encode_ne_padding, ih,
      and_false, false_and, if_false, List.append_eq, List.nil_append]
    rw [ofNat_eq_byte b0 _ (by omega), ofNat_eq_byte b1 _ (by omega),
      ofNat_eq_byte b2 _ (by omega)]
  | case2 b0 b1 =>
    have h0 := b0.isLt
    have h1 := b1.isLt
    simp only [base64.URLEncoding.EncodeToString,
      base64.URLEncoding.DecodeString, decodeMap_encode_nat, encode_ne_padding,
      and_false, false_and, if_false, true_and, and_true, if_true]
    rw [ofNat_eq_byte b0 _ (by omega), ofNat_eq_byte b1 _ (by omega)]
  | case3 b0 =>
    have h0 := b0.isLt
    simp only [base64.URLEncoding.EncodeToString,
      base64.URLEncoding.DecodeString, decodeMap_encode_nat, encode_ne_padding,
      and_false, false_and, if_false, true_and, and_true, if_true, and_self]
    rw [ofNat_eq_byte b0 _ (by omega)]
  | case4 => rfl

theorem ofNat_val (n : Nat) (h : n < 256) : (Fin.ofNat n : Byte).val = n := by
  simp only [Fin.ofNat]
  omega

theorem DecodeRune_two (r : Nat) (tail : GoString) (h1 : 0x80 ≤ r) (h2 : r ≤ 0x7FF) :
    utf8.EncodeRune r = [Fin.ofNat (0xC0 + r / 64), Fin.ofNat (0x80 + r % 64)] ∧
    utf8.DecodeRuneInString (utf8.EncodeRune r ++ tail) = (r, 2) := by
  have e : utf8.EncodeRune r = [Fin.ofNat (0xC0 + r / 64), Fin.ofNat (0x80 + r % 64)] := by
    have : ¬ r ≤ 0x7F := by omega
    simp [utf8.EncodeRune, this, h2]
  refine ⟨e, ?_⟩
  rw [e]
  have v0 : (Fin.ofNat (0xC0 + r / 64) : Byte).val = 0xC0 + r / 64 := ofNat_val _ (by omega)
  have v1 : (Fin.ofNat (0x80 + r % 64) : Byte).val = 0x80 + r % 64 := ofNat_val _ (by omega)
  generalize (Fin.ofNat (0xC0 + r / 64) : Byte) = b0 at v0
  generalize (Fin.ofNat (0x80 + r % 64) : Byte) = b1 at v1
  have hf : utf8.first b0 = some (2, 0x80, 0xBF) := by
    have : 0xC2 ≤ b0.val ∧ b0.val ≤ 0xDF := by omega
    simp [utf8.first, this]
  have c1 : ¬ (b0.val < 0x80) := by omega
  have c2 : ¬ (b1.val < 0x80 ∨ 0xBF < b1.val) := by omega
  have c3 : b0.val % 32 * 64 + b1.val % 64 = r := by omega
  simp [utf8.DecodeRuneInString, hf, c1, c2, c3]

theorem DecodeRune_three (r : Nat) (tail : GoString) (h1 : 0x800 ≤ r) (h2 : r ≤ 0xFFFF)
    (hs : r < 0xD800 ∨ 0xDFFF < r) :
    utf8.EncodeRune r = [Fin.ofNat (0xE0 + r / 4096), Fin.ofNat (0x80 + r / 64 % 64),
      Fin.ofNat (0x80 + r % 64)] ∧
    utf8.DecodeRuneInString (utf8.EncodeRune r ++ tail) = (r, 3) := by
  have e : utf8.EncodeRune r = [Fin.ofNat (0xE0 + r / 4096), Fin.ofNat (0x80 + r / 64 % 64),
      Fin.ofNat (0x80 + r % 64)] := by
    have a1 : ¬ r ≤ 0x7F := by omega
    have a2 : ¬ r ≤ 0x7FF := by omega
    have a3 : ¬ (r > 0x10FFFF ∨ (0xD800 ≤ r ∧ r ≤ 0xDFFF)) := by omega
    simp only [utf8.EncodeRune, a1, a2, a3, h2, if_true, if_false]
  refine ⟨e, ?_⟩
  rw [e]
  have v0 : (Fin.ofNat (0xE0 + r / 4096) : Byte).val = 0xE0 + r / 4096 := ofNat_val _ (by omega)
  have v1 : (Fin.ofNat (0x80 + r / 64 % 64) : Byte).val = 0x80 + r / 64 % 64 :=
    ofNat_val _ (by omega)
  have v2 : (Fin.ofNat (0x80 + r % 64) : Byte).val = 0x80 + r % 64 := ofNat_val _ (by omega)
  generalize (Fin.ofNat (0xE0 + r / 4096) : Byte) = b0 at v0
  generalize (Fin.ofNat (0x80 + r / 64 % 64) : Byte) = b1 at v1
  generalize (Fin.ofNat (0x80 + r % 64) : Byte) = b2 at v2
  have c0 : ¬ (b0.val < 0x80) := by omega
  have c2 : ¬ (b2.val < 0x80 ∨ 0xBF < b2.val) := by omega
  have c3 : b0.val % 16 * 4096 + b1.val % 64 * 64 + b2.val % 64 = r := by omega
  have n2 : ¬ (0xC2 ≤ b0.val ∧ b0.val ≤ 0xDF) := by omega
  by_cases hE0 : b0.val = 0xE0
  · have hf : utf8.first b0 = some (3, 0xA0, 0xBF) := by
      simp [utf8.first, hE0]
    have c1 : ¬ (b1.val < 0xA0 ∨ 0xBF < b1.val) := by omega
    simp [utf8.DecodeRuneInString, hf, c0, c1, c2, c3]
  · by_cases hED : b0.val = 0xED
    · have hf : utf8.first b0 = some (3, 0x80, 0x9F) := by
        simp [utf8.first, hED]
      have c1 : ¬ (b1.val < 0x80 ∨ 0x9F < b1.val) := by omega
      simp [utf8.DecodeRuneInString, hf, c0, c1, c2, c3]
    · have hf : utf8.first b0 = some (3, 0x80, 0xBF) := by
        have : 0xE1 ≤ b0.val ∧ b0.val ≤ 0xEF := by omega
        simp [utf8.first, n2, hE0, hED, this]
      have c1 : ¬ (b1.val < 0x80 ∨ 0xBF < b1.val) := by omega
      simp [utf8.DecodeRuneInString, hf, c0, c1, c2, c3]

theorem DecodeRune_four (r : Nat) (tail : GoString) (h1 : 0x10000 ≤ r) (h2 : r ≤ 0x10FFFF) :
    utf8.EncodeRune r = [Fin.ofNat (0xF0 + r / 262144), Fin.ofNat (0x80 + r / 4096 % 64),
      Fin.ofNat (0x80 + r / 64 % 64), Fin.ofNat (0x80 + r % 64)] ∧
    utf8.DecodeRuneInString (utf8.EncodeRune r ++ tail) = (r, 4) := by
  have e : utf8.EncodeRune r = [Fin.ofNat (0xF0 + r / 262144),
      Fin.ofNat (0x80 + r / 4096 % 64), Fin.ofNat (0x80 + r / 64 % 64),
      Fin.ofNat (0x80 + r % 64)] := by
    have a1 : ¬ r ≤ 0x7F := by omega
    have a2 : ¬ r ≤ 0x7FF := by omega
    have a3 : ¬ (r > 0x10FFFF ∨ (0xD800 ≤ r ∧ r ≤ 0xDFFF)) := by omega
    have a4 : ¬ r ≤ 0xFFFF := by omega
    simp only [utf8.EncodeRune, a1, a2, a3, a4, if_false]
  refine ⟨e, ?_⟩
  rw [e]
  have v0 : (Fin.ofNat (0xF0 + r / 262144) : Byte).val = 0xF0 + r / 262144 :=
    ofNat_val _ (by omega)
  have v1 : (Fin.ofNat (0x80 + r / 4096 % 64) : Byte).val = 0x80 + r / 4096 % 64 :=
    ofNat_val _ (by omega)
  have v2 : (Fin.ofNat (0x80 + r / 64 % 64) : Byte).val = 0x80 + r / 64 % 64 :=
    ofNat_val _ (by omega)
  have v3 : (Fin.ofNat (0x80 + r % 64) : Byte).val = 0x80 + r % 64 := ofNat_val _ (by omega)
  generalize (Fin.ofNat (0xF0 + r / 262144) : Byte) = b0 at v0
  generalize (Fin.ofNat (0x80 + r / 4096 % 64) : Byte) = b1 at v1
  generalize (Fin.ofNat (0x80 + r / 64 % 64) : Byte) = b2 at v2
  generalize (Fin.ofNat (0x80 + r % 64) : Byte) = b3 at v3
  have c0 : ¬ (b0.val < 0x80) := by omega
  have c2 : ¬ (b2.val < 0x80 ∨ 0xBF < b2.val) := by omega
  have c3 : ¬ (b3.val < 0x80 ∨ 0xBF < b3.val) := by omega
  have c4 : b0.val % 8 * 262144 + b1.val % 64 * 4096 + b2.val % 64 * 64 + b3.val % 64 = r := by
    omega
  have n2 : ¬ (0xC2 ≤ b0.val ∧ b0.val ≤ 0xDF) := by omega
  have n3 : ¬ (0xE1 ≤ b0.val ∧ b0.val ≤ 0xEF) := by omega
  have nE0 : ¬ b0.val = 0xE0 := by omega
  have nED : ¬ b0.val = 0xED := by omega
  by_cases hF0 : b0.val = 0xF0
  · have hf : utf8.first b0 = some (4, 0x90, 0xBF) := by
      simp [utf8.first, hF0]
    have c1 : ¬ (b1.val < 0x90 ∨ 0xBF < b1.val) := by omega
    simp [utf8.DecodeRuneInString, hf, c0, c1, c2, c3, c4]
  · by_cases hF4 : b0.val = 0xF4
    · have hf : utf8.first b0 = some (4, 0x80, 0x8F) := by
        simp [utf8.first, hF4]
      have c1 : ¬ (b1.val < 0x80 ∨ 0x8F < b1.val) := by omega
      simp [utf8.DecodeRuneInString, hf, c0, c1, c2, c3, c4]
    · have hf : utf8.first b0 = some (4, 0x80, 0xBF) := by
        have : 0xF1 ≤ b0.val ∧ b0.val ≤ 0xF3 := by omega
        simp [utf8.first, n2, n3, nE0, nED, hF0, hF4, this]
      have c1 : ¬ (b1.val < 0x80 ∨ 0xBF < b1.val) := by omega
      simp [utf8.DecodeRuneInString, hf, c0, c1, c2, c3, c4]

theorem DecodeRune_char (c : Char) (tail : GoString) (h : 0x80 ≤ c.toNat) :
    ∃ b0 bs, utf8.EncodeRune c.toNat = b0 :: bs ∧ 0x80 ≤ b0.val ∧ bs ≠ [] ∧
      utf8.DecodeRuneInString (b0 :: bs ++ tail) = (c.toNat, (b0 :: bs).length) := by
  have hv : c.toNat < 0xD800 ∨ (0xDFFF < c.toNat ∧ c.toNat < 0x110000) := c.valid
  by_cases h2 : c.toNat ≤ 0x7FF
  · obtain ⟨e, d⟩ := DecodeRune_two c.toNat tail h h2
    rw [e] at d
    exact ⟨_, _, e, by rw [ofNat_val _ (by omega)]; omega, by simp, d⟩
  · by_cases h3 : c.toNat ≤ 0xFFFF
    · obtain ⟨e, d⟩ := DecodeRune_three c.toNat tail (by omega) h3 (by omega)
      rw [e] at d
      exact ⟨_, _, e, by rw [ofNat_val _ (by omega)]; omega, by simp, d⟩
    · obtain ⟨e, d⟩ := DecodeRune_four c.toNat tail (by omega) (by omega)
      rw [e] at d
      exact ⟨_, _, e, by rw [ofNat_val _ (by omega)]; omega, by simp, d⟩

theorem unquoteLoop_literal (b : Byte) (f : Nat) (Y acc : GoString)
    (h1 : b ≠ 0x22) (h2 : b ≠ 0x5C) (h3 : 0x20 ≤ b.val) (h4 : b.val < 0x80) :
    json.unquoteLoop (f + 1) (b :: Y) acc = json.unquoteLoop f Y (acc ++ [b]) := by
  have h3' : ¬ b.val < 0x20 := by omega
  simp [json.unquoteLoop, h1, h2, h3', h4]

theorem unquoteLoop_simple (e x : Byte) (f : Nat) (Y acc : GoString)
    (h1 : e ≠ 0x75) (h2 : json.simpleEscape e = some x) :
    json.unquoteLoop (f + 1) (0x5C :: e :: Y) acc = json.unquoteLoop f Y (acc ++ [x]) := by
  simp [json.unquoteLoop, h1, h2]

theorem getu4_append (l Y : GoString) (r : Nat) (h : json.getu4 l = some (r, [])) :
    json.getu4 (l ++ Y) = some (r, Y) := by
  match l, h with
  | [h0, h1, h2, h3], h =>
    simp only [json.getu4, List.cons_append, List.nil_append] at h ⊢
    split at h <;> simp_all
  | _ :: _ :: _ :: _ :: _ :: _, h =>
    simp only [json.getu4] at h
    split at h <;> simp_all

theorem unquoteLoop_unicode (l : GoString) (r f : Nat) (Y acc : GoString)
    (h1 : json.getu4 l = some (r, [])) (h2 : ¬ (0xD800 ≤ r ∧ r < 0xDC00)) :
    json.unquoteLoop (f + 1) (0x5C :: 0x75 :: (l ++ Y)) acc =
      json.unquoteLoop f Y (acc ++ utf8.EncodeRune r) := by
  simp [json.unquoteLoop, getu4_append l Y r h1, h2]

theorem unquoteLoop_rune (b : Byte) (f : Nat) (rest acc : GoString) (h : 0x80 ≤ b.val) :
    json.unquoteLoop (f + 1) (b :: rest) acc =
      json.unquoteLoop f ((b :: rest).drop (utf8.DecodeRuneInString (b :: rest)).2)
        (acc ++ utf8.EncodeRune (utf8.DecodeRuneInString (b :: rest)).1) := by
  have h1 : b ≠ 0x22 := by intro e; rw [e] at h; revert h; decide
  have h2 : b ≠ 0x5C := by intro e; rw [e] at h; revert h; decide
  have h3 : ¬ b.val < 0x20 := by omega
  have h4 : ¬ b.val < 0x80 := by omega
  simp [json.unquoteLoop, h1, h2, h3, h4]

set_option maxRecDepth 100000 in
theorem ascii_escape_cases : ∀ b : Byte, b.val < 0x80 →
    (json.htmlSafeSet b = true ∧ b ≠ 0x22 ∧ b ≠ 0x5C ∧ 0x20 ≤ b.val) ∨
    (json.htmlSafeSet b = false ∧ json.escapeByte b = [0x5C, (json.escapeByte b).getD 1 0] ∧
      (json.escapeByte b).getD 1 0 ≠ 0x75 ∧
      json.simpleEscape ((json.escapeByte b).getD 1 0) = some b) ∨
    (json.htmlSafeSet b = false ∧
      json.escapeByte b = 0x5C :: 0x75 :: (json.escapeByte b).drop 2 ∧
      json.getu4 ((json.escapeByte b).drop 2) = some (b.val, [])) := by
  decide

theorem EncodeRune_ascii (b : Byte) (h : b.val < 0x80) : utf8.EncodeRune b.val = [b] := by
  have h1 : b.val ≤ 0x7F := by omega
  simp only [utf8.EncodeRune, h1, if_true]
  rw [ofNat_eq_byte b _ rfl]

theorem stringLoop_char (c : Char) :
    ∃ E : List Byte, E ≠ [] ∧
      (∀ (fuel : Nat) (rest : GoString),
        json.encodeState.stringLoop (fuel + 1) (utf8.EncodeRune c.toNat ++ rest) =
          E ++ json.encodeState.stringLoop fuel rest) ∧
      (∀ (f : Nat) (Y acc : GoString),
        json.unquoteLoop (f + 1) (E ++ Y) acc =
          json.unquoteLoop f Y (acc ++ utf8.EncodeRune c.toNat)) := by
  by_cases hc : c.toNat < 0x80
  · -- one ASCII byte
    have hb : ((Fin.ofNat c.toNat : Byte)).val = c.toNat := ofNat_val _ (by omega)
    have he : utf8.EncodeRune c.toNat = [Fin.ofNat c.toNat] := by
      have := EncodeRune_ascii (Fin.ofNat c.toNat) (by omega)
      rw [hb] at this
      exact this
    rw [he]
    generalize (Fin.ofNat c.toNat : Byte) = b at hb
    have hb80 : b.val < 0x80 := by omega
    rcases ascii_escape_cases b hb80 with ⟨hs, h1, h2, h3⟩ | ⟨hs, he1, he2, he3⟩ | ⟨hs, hu1, hu2⟩
    · refine ⟨[b], by simp, fun fuel rest => ?_, fun f Y acc => ?_⟩
      · simp [json.encodeState.stringLoop, hb80, hs]
      · exact unquoteLoop_literal b f Y acc h1 h2 h3 hb80
    · refine ⟨json.escapeByte b, by rw [he1]; simp, fun fuel rest => ?_, fun f Y acc => ?_⟩
      · simp [json.encodeState.stringLoop, hb80, hs]
      · rw [he1]
        exact unquoteLoop_simple _ b f Y acc he2 he3
    · refine ⟨json.escapeByte b, by rw [hu1]; simp, fun fuel rest => ?_, fun f Y acc => ?_⟩
      · simp [json.encodeState.stringLoop, hb80, hs]
      · rw [hu1]
        have := unquoteLoop_unicode _ b.val f Y acc hu2 (by omega)
        rw [EncodeRune_ascii b hb80] at this
        simpa using this
  · -- a multi-byte character
    have h80 : 0x80 ≤ c.toNat := by omega
    have hstep : ∀ (fuel : Nat) (rest : GoString),
        json.encodeState.stringLoop (fuel + 1) (utf8.EncodeRune c.toNat ++ rest) =
          (if c.toNat = 0x2028 ∨ c.toNat = 0x2029 then
            str "\\u202" ++ [json.hex.getD (c.toNat % 16) 0]
          else utf8.EncodeRune c.toNat) ++ json.encodeState.stringLoop fuel rest := by
      intro fuel rest
      obtain ⟨b0, bs, e, hb0, hbs, d⟩ := DecodeRune_char c rest h80
      have hlen : 2 ≤ (b0 :: bs).length := by
        cases bs with
        | nil => exact absurd rfl hbs
        | cons x xs => simp
      rw [e]
      have nb : ¬ b0.val < 0x80 := by omega
      have d' : utf8.DecodeRuneInString (b0 :: (bs ++ rest)) = (c.toNat, (b0 :: bs).length) := d
      have hne : ¬ (c.toNat = utf8.RuneError ∧ (b0 :: bs).length = 1) := by
        intro hh; omega
      have hdrop : List.drop (b0 :: bs).length (b0 :: (bs ++ rest)) = rest := by
        rw [← List.cons_append]
        exact List.drop_left _ _
      have htake : List.take (b0 :: bs).length (b0 :: (bs ++ rest)) = b0 :: bs := by
        rw [← List.cons_append]
        exact List.take_left _ _
      show json.encodeState.stringLoop (fuel + 1) (b0 :: (bs ++ rest)) = _
      rw [json.encodeState.stringLoop]
      simp only [nb, if_false, d', hne, hdrop, htake]
      split <;> simp
    by_cases hls : c.toNat = 0x2028 ∨ c.toNat = 0x2029
    · refine ⟨str "\\u202" ++ [json.hex.getD (c.toNat % 16) 0], by simp, fun fuel rest => ?_,
        fun f Y acc => ?_⟩
      · rw [hstep, if_pos hls]
      · rcases hls with h | h
        · rw [h]
          exact unquoteLoop_unicode (str "2028") 0x2028 f Y acc (by decide) (by decide)
        · rw [h]
          exact unquoteLoop_unicode (str "2029") 0x2029 f Y acc (by decide) (by decide)
    · refine ⟨utf8.EncodeRune c.toNat, ?_, fun fuel rest => ?_, fun f Y acc => ?_⟩
      · obtain ⟨b0, bs, e, _⟩ := DecodeRune_char c [] h80
        rw [e]; simp
      · rw [hstep, if_neg hls]
      · obtain ⟨b0, bs, e, hb0, hbs, d⟩ := DecodeRune_char c Y h80
        rw [e, List.cons_append, unquoteLoop_rune b0 f (bs ++ Y) acc hb0]
        have d' : utf8.DecodeRuneInString (b0 :: (bs ++ Y)) = (c.toNat, (b0 :: bs).length) := d
        rw [d']
        have hdrop : List.drop (b0 :: bs).length (b0 :: (bs ++ Y)) = Y := by
          rw [← List.cons_append]
          exact List.drop_left _ _
        simp only [hdrop, e]

/-- The bytes of a sequence of characters. -/
theorem str_cons (c : Char) (cs : List Char) :
    str (String.mk (c :: cs)) = utf8.EncodeRune c.toNat ++ str (String.mk cs) := by
  simp [str]

theorem EncodeRune_char_ne_nil (c : Char) : utf8.EncodeRune c.toNat ≠ [] := by
  unfold utf8.EncodeRune
  split_ifs <;> simp

theorem unquoteLoop_stringLoop (cs : List Char) :
    ∀ (fuel f : Nat) (acc tail : GoString),
      (str (String.mk cs)).length ≤ fuel →
      (json.encodeState.stringLoop fuel (str (String.mk cs))).length + 1 ≤ f →
      json.unquoteLoop f (json.encodeState.stringLoop fuel (str (String.mk cs)) ++ 0x22 :: tail)
        acc = some (acc ++ str (String.mk cs), tail) := by
  induction cs with
  | nil =>
    intro fuel f acc tail _ hf
    have hs : str (String.mk []) = [] := rfl
    have hl : json.encodeState.stringLoop fuel [] = [] := by
      cases fuel <;> rfl
    rw [hs, hl] at *
    obtain ⟨f', rfl⟩ : ∃ f', f = f' + 1 := ⟨f - 1, by simp at hf; omega⟩
    simp [json.unquoteLoop]
  | cons c cs ih =>
    intro fuel f acc tail hfuel hf
    rw [str_cons] at *
    obtain ⟨E, hE, henc, hdec⟩ := stringLoop_char c
    have hpos : 0 < (utf8.EncodeRune c.toNat).length :=
      List.length_pos.mpr (EncodeRune_char_ne_nil c)
    have hEpos : 0 < E.length := List.length_pos.mpr hE
    obtain ⟨fuel', rfl⟩ : ∃ fuel', fuel = fuel' + 1 := ⟨fuel - 1, by
      simp only [List.length_append] at hfuel; omega⟩
    rw [henc] at hf ⊢
    obtain ⟨f', rfl⟩ : ∃ f', f = f' + 1 := ⟨f - 1, by
      simp only [List.length_append] at hf; omega⟩
    rw [List.append_assoc, hdec]
    rw [ih fuel' f' (acc ++ utf8.EncodeRune c.toNat) tail
      (by simp only [List.length_append] at hfuel; omega)
      (by simp only [List.length_append] at hf; omega)]
    simp

theorem unquote_string (s : String) (tail : GoString) :
    json.unquote (json.encodeState.stringLoop (str s).length (str s) ++ 0x22 :: tail) =
      some (str s, tail) := by
  have hs : String.mk s.data = s := rfl
  have h := unquoteLoop_stringLoop s.data (str s).length
    ((json.encodeState.stringLoop (str s).length (str s) ++ 0x22 :: tail).length) [] tail
    (by rw [hs]) (by rw [hs]; simp only [List.length_append, List.length_cons]; omega)
  rw [hs] at h
  simpa [json.unquote] using h

theorem unquote_plain_key (k : String) (Y : GoString)
    (hk : json.encodeState.string (str k) = [0x22] ++ str k ++ [0x22]) :
    json.unquote (str k ++ 0x22 :: Y) = some (str k, Y) := by
  have h := unquote_string k Y
  have hl : json.encodeState.stringLoop (str k).length (str k) = str k := by
    simpa [json.encodeState.string] using hk
  rw [hl] at h
  exact h

theorem encodeMember_shape (k v : String) (tail : GoString) :
    json.encodeMember (str k, str v) ++ tail =
      0x22 :: (str k ++ 0x22 :: 0x3A :: 0x22 ::
        (json.encodeState.stringLoop (str v).length (str v) ++ 0x22 :: tail)) := by
  simp [json.encodeMember, json.encodeState.string]

theorem parseMembers_last (k v : String) (fuel : Nat) (acc : List (GoString × GoString))
    (hk : json.encodeState.string (str k) = [0x22] ++ str k ++ [0x22]) :
    json.parseMembers (fuel + 1) (json.encodeMember (str k, str v) ++ [0x7D]) acc =
      some (acc ++ [(str k, str v)]) := by
  rw [encodeMember_shape, json.parseMembers]
  simp [unquote_plain_key k _ hk, unquote_string v]

theorem parseMembers_more (k v : String) (fuel : Nat) (s3 : GoString)
    (acc : List (GoString × GoString))
    (hk : json.encodeState.string (str k) = [0x22] ++ str k ++ [0x22]) :
    json.parseMembers (fuel + 1) (json.encodeMember (str k, str v) ++ 0x2C :: s3) acc =
      json.parseMembers fuel s3 (acc ++ [(str k, str v)]) := by
  rw [encodeMember_shape, json.parseMembers]
  simp [unquote_plain_key k _ hk, unquote_string v]

theorem encodeMember_ne_nil (kv : GoString × GoString) : json.encodeMember kv ≠ [] := by
  simp [json.encodeMember]

theorem encodeMember_ne_brace (kv : GoString × GoString) (tail : GoString) :
    json.encodeMember kv ++ tail ≠ [0x7D] := by
  simp [json.encodeMember]

theorem Unmarshal_Marshal (username password : String) :
    ∃ buf, json.Marshal { Username := str username, Password := str password } = .ok buf ∧
      json.Unmarshal buf = some { Username := str username, Password := str password } := by
  have ku : json.encodeState.string (str "username") = [0x22] ++ str "username" ++ [0x22] := by
    decide
  have kp : json.encodeState.string (str "password") = [0x22] ++ str "password" ++ [0x22] := by
    decide
  have e1 : str "password" ≠ str "username" := by decide
  refine ⟨_, rfl, ?_⟩
  by_cases hu : str username = []
  · by_cases hp : str password = []
    · simp [json.Unmarshal, json.authFields, hu, hp, json.parseObject, List.intercalate]
    · have hm : ([0x7B] ++ [0x2C].intercalate
          (((json.authFields { Username := str username, Password := str password }).filter
            fun kv => kv.2 != []).map json.encodeMember) ++ [0x7D]) =
          0x7B :: (json.encodeMember (str "password", str password) ++ [0x7D]) := by
        simp [json.authFields, hu, hp, List.intercalate]
      rw [json.Unmarshal, hm, json.parseObject]
      have hlen : ∃ n, (json.encodeMember (str "password", str password) ++ [0x7D]).length =
          n + 1 := ⟨_, List.length_append _ _⟩
      obtain ⟨n, hn⟩ := hlen
      simp only [ne_eq, not_true_eq_false, if_false, encodeMember_ne_brace, hn,
        parseMembers_last "password" password n [] kp]
      simp [json.setField, hu, e1]
  · by_cases hp : str password = []
    · have hm : ([0x7B] ++ [0x2C].intercalate
          (((json.authFields { Username := str username, Password := str password }).filter
            fun kv => kv.2 != []).map json.encodeMember) ++ [0x7D]) =
          0x7B :: (json.encodeMember (str "username", str username) ++ [0x7D]) := by
        simp [json.authFields, hu, hp, List.intercalate]
      rw [json.Unmarshal, hm, json.parseObject]
      have hlen : ∃ n, (json.encodeMember (str "username", str username) ++ [0x7D]).length =
          n + 1 := ⟨_, List.length_append _ _⟩
      obtain ⟨n, hn⟩ := hlen
      simp only [ne_eq, not_true_eq_false, if_false, encodeMember_ne_brace, hn,
        parseMembers_last "username" username n [] ku]
      simp [json.setField, hp]
    · have hm : ([0x7B] ++ [0x2C].intercalate
          (((json.authFields { Username := str username, Password := str password }).filter
            fun kv => kv.2 != []).map json.encodeMember) ++ [0x7D]) =
          0x7B :: (json.encodeMember (str "username", str username) ++
            0x2C :: (json.encodeMember (str "password", str password) ++ [0x7D])) := by
        simp [json.authFields, hu, hp, List.intercalate]
      rw [json.Unmarshal, hm, json.parseObject]
      have hlen : ∃ n, (json.encodeMember (str "username", str username) ++
          0x2C :: (json.encodeMember (str "password", str password) ++ [0x7D])).length =
          n + 1 + 1 := ⟨(json.encodeMember (str "username", str username)).length +
            (json.encodeMember (str "password", str password)).length, by
              simp only [List.length_append, List.length_cons, List.length_nil]; omega⟩
      obtain ⟨n, hn⟩ := hlen
      simp only [ne_eq, not_true_eq_false, if_false, encodeMember_ne_brace, hn,
        parseMembers_more "username" username (n + 1) _ [] ku, List.nil_append,
        parseMembers_last "password" password n _ kp]
      simp [json.setField, e1]

theorem imagePush_not_mem_interpret (image img tok : GoString) (out : List DecodeResult) :
    Event.imagePush img tok ∉ (pushImage.interpret image out).1 := by
  induction out with
  | nil => simp [pushImage.interpret]
  | cons d rest ih =>
    cases d with
    | err e =>
      by_cases he : e = .EOF <;> simp [pushImage.interpret, he]
    | msg m =>
      have hs : Event.imagePush img tok ∉ pushImage.statusEvents m := by
        unfold pushImage.statusEvents
        split <;> simp
      by_cases hm : m.Error = none
      · rw [interpret_msg_ok image m rest hm]
        simp [hs, ih]
      · rw [interpret_msg_error image m rest hm]
        simp [hs]

theorem imagePush_not_mem_backwardVersion (env : DockerEnv) (img tok : GoString) :
    Event.imagePush img tok ∉ (backwardVersion env).1 := by
  cases h : env.Ping with
  | error e => simp [backwardVersion, h]
  | ok v =>
    simp only [backwardVersion, h]
    split <;> split <;> simp

theorem backwardVersion_ok (env : DockerEnv) (v : GoString) (hp : env.Ping = .ok v) :
    ∃ ev version, backwardVersion env = (ev, none, version) := by
  simp only [backwardVersion, hp]
  split <;> split <;> exact ⟨_, _, rfl⟩

theorem encodeAuthToBase64_ok (a : AuthConfig) :
    ∃ buf, json.Marshal a = .ok buf ∧
      encodeAuthToBase64 a = .ok (base64.URLEncoding.EncodeToString buf) :=
  ⟨_, rfl, rfl⟩

theorem pushImage_pushes (env : DockerEnv) (image user pass : GoString) (ev : List Event)
    (version tok : GoString) (hc : env.NewEnvClient = none)
    (hb : backwardVersion env = (ev, none, version))
    (ht : encodeAuthToBase64 { Username := user, Password := pass } = .ok tok) :
    ∃ tail, (pushImage env image user pass).1 =
        .newEnvClient :: ev ++ [.imagePush image tok] ++ tail ∧
      ∀ img t, Event.imagePush img t ∉ tail := by
  obtain ⟨buf, hm, he⟩ := encodeAuthToBase64_ok { Username := user, Password := pass }
  rw [he] at ht
  have ht' : base64.URLEncoding.EncodeToString buf = tok := Except.ok.inj ht
  subst ht'
  unfold pushImage
  simp only [hc, hb, hm]
  cases hp : env.ImagePush version image (base64.URLEncoding.EncodeToString buf) with
  | error err => exact ⟨[], by simp, by simp⟩
  | ok out =>
    refine ⟨(pushImage.interpret image out).1 ++ [.close], by simp, fun img t => ?_⟩
    have := imagePush_not_mem_interpret image img t out
    simp [this]

/-- Counterexample to claim C9 as stated: the username that is the single byte
`0xFF` is not valid UTF-8; `json.Marshal` writes it as the escape of U+FFFD, and
the token decodes to the three bytes of U+FFFD, not to the original byte. -/
theorem invalid_utf8_username_not_restored :
    encodeAuthToBase64 { Username := [0xFF], Password := str "secret" } =
        .ok (str "eyJ1c2VybmFtZSI6Ilx1ZmZmZCIsInBhc3N3b3JkIjoic2VjcmV0In0=") ∧
      decodeAuthFromBase64 (str "eyJ1c2VybmFtZSI6Ilx1ZmZmZCIsInBhc3N3b3JkIjoic2VjcmV0In0=") =
        some { Username := [0xEF, 0xBF, 0xBD], Password := str "secret" } ∧
      roundTrips [0xFF] (str "secret") = false := by
  decide

/-- Claim C9, amended: for every username and password that are valid UTF-8 (the
bytes of a sequence of Unicode characters), `encodeAuthToBase64` succeeds and
its token, base64 URL-decoded and parsed as JSON, gives back that username and
password; and for every username and password, valid or not, a push request of
`pushImage` carries the image and exactly the token `encodeAuthToBase64` makes
of them, and such a request is sent once the client is created and the ping is
answered. -/
theorem auth_token_round_trip (username password : String) (env : DockerEnv)
    (image user pass : GoString) :
    (∃ token, encodeAuthToBase64 { Username := str username, Password := str password } =
        .ok token ∧
      decodeAuthFromBase64 token =
        some { Username := str username, Password := str password } ∧
      roundTrips (str username) (str password) = true) ∧
    (∀ img tok, Event.imagePush img tok ∈ (pushImage env image user pass).1 →
      img = image ∧ encodeAuthToBase64 { Username := user, Password := pass } = .ok tok) ∧
    (∀ v, env.NewEnvClient = none → env.Ping = .ok v →
      ∃ tok, Event.imagePush image tok ∈ (pushImage env image user pass).1) := by
  refine ⟨?_, ?_, ?_⟩
  · obtain ⟨buf, hm, hu⟩ := Unmarshal_Marshal username password
    have henc : encodeAuthToBase64 { Username := str username, Password := str password } =
        .ok (base64.URLEncoding.EncodeToString buf) := by
      simp only [encodeAuthToBase64, hm]
    have hdec : decodeAuthFromBase64 (base64.URLEncoding.EncodeToString buf) =
        some { Username := str username, Password := str password } := by
      simp only [decodeAuthFromBase64, base64_round_trip, Option.some_bind, hu]
    refine ⟨_, henc, hdec, ?_⟩
    simp only [roundTrips, henc, hdec]
    simp
  · intro img tok hmem
    cases hc : env.NewEnvClient with
    | some err =>
      simp [pushImage, hc] at hmem
    | none =>
      have hnb := imagePush_not_mem_backwardVersion env img tok
      rcases hb : backwardVersion env with ⟨ev, err, version⟩
      rw [hb] at hnb
      cases err with
      | some e =>
        simp [pushImage, hc, hb] at hmem
        exact absurd hmem hnb
      | none =>
        obtain ⟨buf, _, he⟩ := encodeAuthToBase64_ok { Username := user, Password := pass }
        obtain ⟨tail, hev, htail⟩ := pushImage_pushes env image user pass ev version _ hc hb he
        rw [hev] at hmem
        have ht := htail img tok
        simp only [List.mem_cons, List.mem_append, List.mem_singleton, reduceCtorEq,
          false_or, or_false, ht, Event.imagePush.injEq] at hmem
        rcases hmem with hmem | ⟨h1, h2⟩
        · exact absurd hmem hnb
        · exact ⟨h1, by rw [he, h2]⟩
        all_goals simp_all
  · intro v hc hp
    obtain ⟨ev, version, hb⟩ := backwardVersion_ok env v hp
    obtain ⟨buf, _, he⟩ := encodeAuthToBase64_ok { Username := user, Password := pass }
    obtain ⟨tail, hev, _⟩ := pushImage_pushes env image user pass ev version _ hc hb he
    exact ⟨base64.URLEncoding.EncodeToString buf, by rw [hev]; simp⟩

set_option maxRecDepth 100000 in
/-- Witness of claim C9, amended: a password with a quote, a line break, a
less-than sign and an accented letter; the push request carries its token. -/
theorem auth_token_round_trip_witness :
    decodeAuthFromBase64 (str "eyJ1c2VybmFtZSI6ImFkbWluIiwicGFzc3dvcmQiOiJwXCJcblx1MDAzY8OpIn0=") =
        some { Username := str "admin", Password := str "p\"\n<é" } ∧
      Event.imagePush (str "reg.io/app")
          (str "eyJ1c2VybmFtZSI6ImFkbWluIiwicGFzc3dvcmQiOiJwXCJcblx1MDAzY8OpIn0=") ∈
        (pushImage
          { NewEnvClient := none, Ping := .ok (str "1.30"), ClientVersion := str "1.30",
            LessThan := fun _ _ => false, ImagePush := fun _ _ _ => .ok [] }
          (str "reg.io/app") (str "admin") (str "p\"\n<é")).1 := by
  have h := auth_token_round_trip "admin" "p\"\n<é"
    { NewEnvClient := none, Ping := .ok (str "1.30"), ClientVersion := str "1.30",
      LessThan := fun _ _ => false, ImagePush := fun _ _ _ => .ok [] }
    (str "reg.io/app") (str "admin") (str "p\"\n<é")
  obtain ⟨⟨token, henc, hdec, _⟩, hall, hex⟩ := h
  obtain ⟨tok, hmem⟩ := hex (str "1.30") rfl rfl
  have htok := (hall _ _ hmem).2
  have e1 : token = str "eyJ1c2VybmFtZSI6ImFkbWluIiwicGFzc3dvcmQiOiJwXCJcblx1MDAzY8OpIn0=" := by
    have : encodeAuthToBase64 { Username := str "admin", Password := str "p\"\n<é" } =
        .ok (str "eyJ1c2VybmFtZSI6ImFkbWluIiwicGFzc3dvcmQiOiJwXCJcblx1MDAzY8OpIn0=") := by
      decide
    rw [this] at henc
    exact (Except.ok.inj henc).symm
  have e2 : tok = token := by
    rw [htok] at henc
    exact Except.ok.inj henc
  rw [e1] at hdec e2
  rw [e2] at hmem
  exact ⟨hdec, hmem⟩
